import Mathlib

/-!
Verification development for the workflow-logger repository.

The repository implements a field-redaction engine inside a logging facade
(src/workflow_logger/axiom_logger.py).  The definitions below are a shallow
embedding of that code:

* `Value` models the JSON-like records handled by the engine (Python dicts
  are association lists in insertion order, keys are strings).
* `literalPredicate` models the predicate obtained by compiling a literal
  allowlist entry with `re.compile("^" + re.escape(field.lower()) + "$",
  re.IGNORECASE)` and testing candidates with `pattern.match`.  For such a
  pattern, a candidate matches exactly when it equals the entry up to case,
  or equals the entry up to case followed by one trailing newline (in Python
  regexes the dollar anchor also matches just before a newline that ends the
  string).
* `_compile_patterns`, `_is_field_allowed`, `redact_sensitive_fields` follow
  the methods of the same names; `unwrapBody` is the body-unwrap prelude of
  `redact_sensitive_fields` (lines 160-172).
* `json.loads` is a Python standard-library call, so it is kept abstract: a
  function `parse : String → Option Value` where `none` stands for a parse
  failure (JSONDecodeError) and `some v` for a successful parse.  Where a
  theorem needs it, the hypothesis that parsed output is no heavier than its
  source text (true of any real JSON parser, whose serialisations spell out
  every key and value) is taken explicitly.
* Recursion is driven by a fuel parameter (`redactF`); the top entry point
  `redact_sensitive_fields` supplies fuel `weight data`, and the fuel-
  stability theorems show this choice is enough, which is the embedded form
  of the termination argument.
* `errorDebounceStep` models the debounce fragment of `error` (lines
  219-231).
-/

namespace WorkflowLogger

/-- JSON-like values: the records the redaction engine walks.  Python dicts
are association lists in insertion order. -/
inductive Value where
  | vNull : Value
  | vBool (b : Bool) : Value
  | vInt (n : Int) : Value
  | vStr (s : String) : Value
  | vArr (items : List Value) : Value
  | vObj (fields : List (String × Value)) : Value

mutual

/-- Size measure used as recursion fuel: strings weigh their length plus one,
so that a value no heavier than a string that serialises it is strictly
lighter than that string together with any constant-size wrapper. -/
def weight : Value → Nat
  | Value.vNull => 1
  | Value.vBool _ => 1
  | Value.vInt _ => 1
  | Value.vStr s => s.length + 1
  | Value.vArr items => weightArr items + 1
  | Value.vObj fields => weightObj fields + 1

/-- Total weight of the elements of an array. -/
def weightArr : List Value → Nat
  | [] => 0
  | v :: vs => weight v + weightArr vs

/-- Total weight of the values of an object. -/
def weightObj : List (String × Value) → Nat
  | [] => 0
  | kv :: kvs => weight kv.2 + weightObj kvs

end

/-- Lookup in a Python dict modelled as an association list: the first entry
with the key (a real dict has each key at most once). -/
def dictLookup (fields : List (String × Value)) (k : String) : Option Value :=
  match fields with
  | [] => none
  | kv :: rest => if kv.1 = k then some kv.2 else dictLookup rest k

/-- Key membership test, Python `k in data`. -/
def dictHasKey (fields : List (String × Value)) (k : String) : Bool :=
  fields.any (fun kv => kv.1 == k)

/-- Python dict update `{**fields, k: v}` for one key: an existing key keeps
its position and gets the new value, a new key is appended. -/
def dictInsert (fields : List (String × Value)) (k : String) (v : Value) :
    List (String × Value) :=
  match fields with
  | [] => [(k, v)]
  | kv :: rest => if kv.1 = k then (k, v) :: rest else kv :: dictInsert rest k v

/-- ASCII lowercasing: Python `str.lower` and the effect of `re.IGNORECASE`
on the ASCII field names this engine deals with.  Written with explicit
character arithmetic so that it evaluates by kernel reduction. -/
def asciiLower (s : String) : String :=
  String.mk (s.data.map (fun c =>
    if 'A' ≤ c ∧ c ≤ 'Z' then Char.ofNat (c.toNat + 32) else c))

/-- The predicate compiled from a literal allowlist entry (axiom_logger.py
lines 103-109): `re.compile("^" + re.escape(field.lower()) + "$",
re.IGNORECASE)` tested with `pattern.match`.  The escaped literal matches
itself only, both anchors are present and MULTILINE is off, so a candidate
matches exactly when it equals the entry up to case, or equals the entry up
to case followed by one final newline (the dollar anchor of a Python regex
also matches just before a newline that ends the string). -/
def literalPredicate (field : String) (candidate : String) : Bool :=
  asciiLower candidate == asciiLower field ||
    asciiLower candidate == asciiLower field ++ "\n"

/-- An allowlist entry: a literal field name, or a caller-supplied compiled
regex kept abstract as its matching function (`pattern.match` as a Boolean). -/
inductive FieldSpec where
  | lit (s : String) : FieldSpec
  | pat (matcher : String → Bool) : FieldSpec

/-- Compilation of one allowlist entry (`_compile_patterns` loop body): a
compiled regex is used as is, a literal is turned into `literalPredicate`. -/
def compileFieldSpec : FieldSpec → (String → Bool)
  | FieldSpec.lit s => literalPredicate s
  | FieldSpec.pat m => m

/-- `_compile_patterns` (axiom_logger.py lines 84-113).  The `re.error`
branch is unreachable because `re.escape` always yields a valid pattern, so
compilation is exactly a map over the entries. -/
def _compile_patterns (allowed_fields : List FieldSpec) : List (String → Bool) :=
  allowed_fields.map compileFieldSpec

/-- `DEFAULT_ALLOWED_FIELDS = ["id"]` (axiom_logger.py line 20). -/
def DEFAULT_ALLOWED_FIELDS : List FieldSpec := [FieldSpec.lit "id"]

/-- The allowlist an engine instance ends up with (`__init__` lines 42-43):
`allowed_fields or DEFAULT_ALLOWED_FIELDS` (Python falsiness: absent or
empty both fall back to the default), then `+ ["__body_unwrapped"]`. -/
def initAllowedFields (allowed_fields : Option (List FieldSpec)) : List FieldSpec :=
  (match allowed_fields with
    | none => DEFAULT_ALLOWED_FIELDS
    | some fs => if fs.isEmpty then DEFAULT_ALLOWED_FIELDS else fs)
    ++ [FieldSpec.lit "__body_unwrapped"]

/-- Dotted path extension, `f"{current_path}.{key}" if current_path else key`
(used both for `full_path` in `_is_field_allowed` and for `nested_path` in
`redact_sensitive_fields`). -/
def nestedPath (current_path : String) (key : String) : String :=
  if current_path = "" then key else current_path ++ "." ++ key

/-- `_is_field_allowed` (axiom_logger.py lines 115-135): some compiled
pattern matches the bare field name or the full dotted path. -/
def _is_field_allowed (pats : List (String → Bool)) (field_path : String)
    (current_path : String) : Bool :=
  pats.any (fun p => p field_path || p (nestedPath current_path field_path))

/-- The body-unwrap prelude of `redact_sensitive_fields` (lines 160-172):
at the root only, a record that is exactly one key named body holding a
string that parses as a JSON mapping is replaced by that mapping updated
with the marker key set to true; in every other case the record is kept. -/
def unwrapBody (parse : String → Option Value)
    (fields : List (String × Value)) (current_path : String) :
    List (String × Value) :=
  if fields.length = 1 ∧ dictHasKey fields "body" = true ∧ current_path = "" then
    match dictLookup fields "body" with
    | some (Value.vStr s) =>
      match parse s with
      | some (Value.vObj parsedFields) =>
          dictInsert parsedFields "__body_unwrapped" (Value.vBool true)
      | _ => fields
    | _ => fields
  else fields

/-- Dispatch on an allowed value (lines 178-194): a dict is redacted
recursively under the nested path, a list keeps its order with dict elements
redacted recursively under the same nested path and other elements passed
through, and any other value passes through unchanged.  The recursive call
is a parameter so the definition stays non-recursive. -/
def redactAllowed (recurse : Value → String → Value) (nested_path : String) :
    Value → Value
  | Value.vObj inner => recurse (Value.vObj inner) nested_path
  | Value.vArr items =>
      Value.vArr (items.map (fun item =>
        match item with
        | Value.vObj g => recurse (Value.vObj g) nested_path
        | _ => item))
  | v => v

/-- Fuelled form of `redact_sensitive_fields`: non-dict data is returned
unchanged, dict data is unwrapped (at the root) and then every entry is kept,
recursed into or replaced by the sentinel according to the allow check. -/
def redactF (parse : String → Option Value) (pats : List (String → Bool)) :
    Nat → Value → String → Value
  | 0, data, _ => data
  | fuel + 1, Value.vObj fields, current_path =>
      Value.vObj ((unwrapBody parse fields current_path).map (fun kv =>
        (kv.1,
          if _is_field_allowed pats kv.1 current_path then
            redactAllowed (fun d p => redactF parse pats fuel d p)
              (nestedPath current_path kv.1) kv.2
          else Value.vStr "[REDACTED]")))
  | _ + 1, data, _ => data

/-- `redact_sensitive_fields` (axiom_logger.py lines 137-198).  Fuel
`weight data` is enough whenever the parser output is no heavier than its
source text; the fuel-stability theorem below makes that precise. -/
def redact_sensitive_fields (parse : String → Option Value)
    (pats : List (String → Bool)) (data : Value) (current_path : String) :
    Value :=
  redactF parse pats (weight data) data current_path

/-- `self.last_error_time = None` at construction (axiom_logger.py line 53). -/
def initLastErrorTime : Option ℚ := none

/-- The debounce fragment of `error` (axiom_logger.py lines 219-231): the
suppress flag is set when a previous error time exists and the gap is under
five seconds, and the stored time is always replaced by the current one. -/
def errorDebounceStep (last_error_time : Option ℚ) (current_time : ℚ) :
    Bool × Option ℚ :=
  ((match last_error_time with
    | none => false
    | some t => if current_time - t < 5 then true else false),
   some current_time)

/-! Basic lemmas about the measure and the dict operations. -/

theorem weight_obj (fields : List (String × Value)) :
    weight (Value.vObj fields) = weightObj fields + 1 := by
  simp [weight]

theorem weight_arr (items : List Value) :
    weight (Value.vArr items) = weightArr items + 1 := by
  simp [weight]

theorem weight_pos (v : Value) : 1 ≤ weight v := by
  cases v <;> simp only [weight] <;> omega

theorem weight_le_weightObj {kv : String × Value}
    {fields : List (String × Value)} (h : kv ∈ fields) :
    weight kv.2 ≤ weightObj fields := by
  induction fields with
  | nil => cases h
  | cons hd tl ih =>
      rcases List.mem_cons.mp h with h1 | h2
      · subst h1; simp [weightObj]
      · have := ih h2
        simp [weightObj]; omega

theorem weight_le_weightArr {v : Value} {items : List Value} (h : v ∈ items) :
    weight v ≤ weightArr items := by
  induction items with
  | nil => cases h
  | cons hd tl ih =>
      rcases List.mem_cons.mp h with h1 | h2
      · subst h1; simp [weightArr]
      · have := ih h2
        simp [weightArr]; omega

theorem dictInsert_mem {kv : String × Value} {fields : List (String × Value)}
    {k : String} {v : Value} (h : kv ∈ dictInsert fields k v) :
    kv ∈ fields ∨ kv = (k, v) := by
  induction fields with
  | nil =>
      simp [dictInsert] at h
      exact Or.inr h
  | cons hd tl ih =>
      by_cases hk : hd.1 = k
      · simp [dictInsert, hk] at h
        rcases h with h1 | h2
        · exact Or.inr (by simp [h1])
        · exact Or.inl (List.mem_cons_of_mem _ h2)
      · simp [dictInsert, hk] at h
        rcases h with h1 | h2
        · exact Or.inl (by simp [h1])
        · rcases ih h2 with h3 | h4
          · exact Or.inl (List.mem_cons_of_mem _ h3)
          · exact Or.inr h4

theorem dictLookup_some_mem {fields : List (String × Value)} {k : String}
    {v : Value} (h : dictLookup fields k = some v) : (k, v) ∈ fields := by
  induction fields with
  | nil => simp [dictLookup] at h
  | cons hd tl ih =>
      by_cases hk : hd.1 = k
      · have h2 : hd.2 = v := by simpa [dictLookup, hk] using h
        have h3 : hd = (k, v) := by
          obtain ⟨a, b⟩ := hd
          simp_all
        rw [h3]
        exact List.mem_cons_self _ _
      · have h2 : dictLookup tl k = some v := by
          simpa [dictLookup, hk] using h
        exact List.mem_cons_of_mem _ (ih h2)

theorem dictHasKey_iff_lookup {fields : List (String × Value)} {k : String} :
    dictHasKey fields k = true ↔ ∃ v, dictLookup fields k = some v := by
  induction fields with
  | nil => simp [dictHasKey, dictLookup]
  | cons hd tl ih =>
      by_cases hk : hd.1 = k
      · simp [dictHasKey, dictLookup, hk]
      · simp [dictHasKey, dictLookup, hk]
        simpa [dictHasKey] using ih

theorem dictLookup_map (fields : List (String × Value))
    (h : String → Value → Value) (k : String) :
    dictLookup (fields.map (fun kv => (kv.1, h kv.1 kv.2))) k
      = (dictLookup fields k).map (fun v => h k v) := by
  induction fields with
  | nil => simp [dictLookup]
  | cons hd tl ih =>
      by_cases hk : hd.1 = k
      · subst hk; simp [dictLookup]
      · simp [dictLookup, hk, ih]

/-- Every value stored in the working record after the body-unwrap prelude
is no heavier than the value part of the original record, provided parsed
output is no heavier than its source text. -/
theorem weight_unwrapBody_le {parse : String → Option Value}
    (hparse : ∀ s v, parse s = some v → weight v ≤ s.length)
    {fields : List (String × Value)} {current_path : String}
    {kv : String × Value} (h : kv ∈ unwrapBody parse fields current_path) :
    weight kv.2 ≤ weightObj fields := by
  unfold unwrapBody at h
  split at h
  · split at h
    next s heq =>
      split at h
      next parsedFields hp =>
        have hbound : weight (Value.vObj parsedFields) ≤ s.length :=
          hparse s _ hp
        rw [weight_obj] at hbound
        have hmem : ("body", Value.vStr s) ∈ fields := dictLookup_some_mem heq
        have hsw : weight (Value.vStr s) ≤ weightObj fields := by
          simpa using weight_le_weightObj hmem
        have hsl : s.length + 1 ≤ weightObj fields := by
          simpa [weight] using hsw
        rcases dictInsert_mem h with hin | heq2
        · have := weight_le_weightObj hin
          omega
        · subst heq2
          have hb : weight (Value.vBool true) = 1 := by simp [weight]
          simp only [hb]
          omega
      next => exact weight_le_weightObj h
    next => exact weight_le_weightObj h
  · exact weight_le_weightObj h

/-! Unfolding equations for the fuelled redactor, and fuel stability. -/

theorem redactF_zero (parse : String → Option Value)
    (pats : List (String → Bool)) (data : Value) (cp : String) :
    redactF parse pats 0 data cp = data := rfl

theorem redactF_obj (parse : String → Option Value)
    (pats : List (String → Bool)) (fuel : Nat)
    (fields : List (String × Value)) (cp : String) :
    redactF parse pats (fuel + 1) (Value.vObj fields) cp
      = Value.vObj ((unwrapBody parse fields cp).map (fun kv =>
          (kv.1,
            if _is_field_allowed pats kv.1 cp then
              redactAllowed (fun d p => redactF parse pats fuel d p)
                (nestedPath cp kv.1) kv.2
            else Value.vStr "[REDACTED]"))) := rfl

/-- With fuel to spare, the result of the fuelled redactor does not depend
on the exact amount of fuel, provided parsed output is no heavier than its
source text.  This is the embedded form of the termination argument for
`redact_sensitive_fields`. -/
theorem redactF_congr_fuel (parse : String → Option Value)
    (pats : List (String → Bool))
    (hparse : ∀ s v, parse s = some v → weight v ≤ s.length) :
    ∀ w data, weight data ≤ w → ∀ n m cp, weight data ≤ n →
      weight data ≤ m →
      redactF parse pats n data cp = redactF parse pats m data cp := by
  intro w
  induction w using Nat.strong_induction_on with
  | _ w ih =>
    intro data hdw n m cp hn hm
    have h1 := weight_pos data
    obtain ⟨n', rfl⟩ : ∃ n', n = n' + 1 := ⟨n - 1, by omega⟩
    obtain ⟨m', rfl⟩ : ∃ m', m = m' + 1 := ⟨m - 1, by omega⟩
    cases data with
    | vNull => rfl
    | vBool b => rfl
    | vInt i => rfl
    | vStr s => rfl
    | vArr items => rfl
    | vObj fields =>
        rw [weight_obj] at hdw hn hm
        rw [redactF_obj, redactF_obj]
        congr 1
        apply List.map_congr_left
        intro kv hkv
        have hkvw : weight kv.2 ≤ weightObj fields :=
          weight_unwrapBody_le hparse hkv
        by_cases ha : _is_field_allowed pats kv.1 cp = true
        · simp only [ha, if_true]
          congr 1
          cases hv : kv.2 with
          | vObj inner =>
              simp only [redactAllowed]
              have hw2 : weight (Value.vObj inner) ≤ weightObj fields := by
                rw [← hv]; exact hkvw
              exact ih (weight (Value.vObj inner)) (by omega) _ le_rfl
                n' m' _ (by omega) (by omega)
          | vArr items =>
              simp only [redactAllowed]
              congr 1
              apply List.map_congr_left
              intro item hitem
              have hiw : weight item ≤ weightArr items :=
                weight_le_weightArr hitem
              have hw2 : weightArr items + 1 ≤ weightObj fields := by
                rw [← weight_arr, ← hv]; exact hkvw
              cases item with
              | vObj g =>
                  exact ih (weight (Value.vObj g)) (by omega) _ le_rfl
                    n' m' _ (by omega) (by omega)
              | vNull => rfl
              | vBool b => rfl
              | vInt i => rfl
              | vStr s => rfl
              | vArr its => rfl
          | vNull => rfl
          | vBool b => rfl
          | vInt i => rfl
          | vStr s => rfl
        · have ha2 : _is_field_allowed pats kv.1 cp = false :=
            Bool.not_eq_true _ |>.mp ha |> fun h => by
              cases hb : _is_field_allowed pats kv.1 cp
              · rfl
              · exact absurd hb ha
          simp only [ha2, if_false, Bool.false_eq_true]

/-- Any fuel at least `weight data` computes `redact_sensitive_fields`. -/
theorem redactF_eq_redact (parse : String → Option Value)
    (pats : List (String → Bool))
    (hparse : ∀ s v, parse s = some v → weight v ≤ s.length)
    {n : Nat} {data : Value} (hn : weight data ≤ n) (cp : String) :
    redactF parse pats n data cp
      = redact_sensitive_fields parse pats data cp :=
  redactF_congr_fuel parse pats hparse n data hn n (weight data) cp hn
    le_rfl

/-! Further helpers used by the claim theorems. -/

/-- The entries of a record known to be a mapping. -/
def objFields : Value → List (String × Value)
  | Value.vObj fields => fields
  | _ => []

/-- A parse function standing for `json.loads` on inputs where it always
fails; used to instantiate witnesses. -/
def noParse : String → Option Value := fun _ => none

/-- A parse function standing for `json.loads` where exactly the text
`payload` parses, to a two-field mapping; used to instantiate witnesses. -/
def onePayload : String → Option Value := fun s =>
  if s = "payload" then
    some (Value.vObj [("id", Value.vInt 1), ("secret", Value.vStr "x")])
  else none

theorem dictLookup_map_entry (fields : List (String × Value))
    (h : String × Value → Value) (k : String) :
    dictLookup (fields.map (fun kv => (kv.1, h kv))) k
      = (dictLookup fields k).map (fun v => h (k, v)) := by
  induction fields with
  | nil => simp [dictLookup]
  | cons hd tl ih =>
      by_cases hk : hd.1 = k
      · obtain ⟨a, b⟩ := hd
        simp at hk
        subst hk
        simp [dictLookup]
      · simp [dictLookup, hk, ih]

theorem singleton_of_length_one_lookup {fields : List (String × Value)}
    {k : String} {v : Value} (hlen : fields.length = 1)
    (hv : dictLookup fields k = some v) : fields = [(k, v)] := by
  obtain ⟨kv, rfl⟩ := List.length_eq_one.mp hlen
  by_cases hk : kv.1 = k
  · have h2 : kv.2 = v := by simpa [dictLookup, hk] using hv
    obtain ⟨a, b⟩ := kv
    simp_all
  · simp [dictLookup, hk] at hv

theorem dictLookup_dictInsert_self (fields : List (String × Value))
    (k : String) (v : Value) :
    dictLookup (dictInsert fields k v) k = some v := by
  induction fields with
  | nil => simp [dictInsert, dictLookup]
  | cons hd tl ih =>
      by_cases hk : hd.1 = k
      · simp [dictInsert, hk, dictLookup]
      · simp [dictInsert, hk, dictLookup, ih]

theorem map_eq_singleton {α β : Type} {f : α → β} {l : List α} {x : β}
    (h : l.map f = [x]) : ∃ a, l = [a] ∧ f a = x := by
  cases l with
  | nil => simp at h
  | cons a t =>
      cases t with
      | nil =>
          simp at h
          exact ⟨a, rfl, h⟩
      | cons b u => simp at h

theorem redactF_not_obj (parse : String → Option Value)
    (pats : List (String → Bool)) (n : Nat) (data : Value)
    (h : ∀ g, data ≠ Value.vObj g) (cp : String) :
    redactF parse pats n data cp = data := by
  cases n with
  | zero => rfl
  | succ m =>
      cases data with
      | vObj g => exact absurd rfl (h g)
      | vNull => rfl
      | vBool b => rfl
      | vInt i => rfl
      | vStr s => rfl
      | vArr its => rfl

theorem redact_not_obj (parse : String → Option Value)
    (pats : List (String → Bool)) (data : Value)
    (h : ∀ g, data ≠ Value.vObj g) (cp : String) :
    redact_sensitive_fields parse pats data cp = data :=
  redactF_not_obj parse pats _ data h cp

/-- Unfolding of `redact_sensitive_fields` on a mapping, with the recursive
occurrences expressed through `redact_sensitive_fields` itself. -/
theorem redact_obj_self (parse : String → Option Value)
    (pats : List (String → Bool))
    (hparse : ∀ s v, parse s = some v → weight v ≤ s.length)
    (fields : List (String × Value)) (cp : String) :
    redact_sensitive_fields parse pats (Value.vObj fields) cp
      = Value.vObj ((unwrapBody parse fields cp).map (fun kv =>
          (kv.1,
            if _is_field_allowed pats kv.1 cp then
              redactAllowed
                (fun d p => redact_sensitive_fields parse pats d p)
                (nestedPath cp kv.1) kv.2
            else Value.vStr "[REDACTED]"))) := by
  unfold redact_sensitive_fields
  rw [weight_obj, redactF_obj]
  congr 1
  apply List.map_congr_left
  intro kv hkv
  have hkvw : weight kv.2 ≤ weightObj fields :=
    weight_unwrapBody_le hparse hkv
  by_cases ha : _is_field_allowed pats kv.1 cp = true
  · simp only [ha, if_true]
    congr 1
    cases hv : kv.2 with
    | vObj inner =>
        simp only [redactAllowed]
        apply redactF_congr_fuel parse pats hparse
          (weight (Value.vObj inner)) _ le_rfl
        · rw [← hv]; exact hkvw
        · exact le_rfl
    | vArr items =>
        simp only [redactAllowed]
        congr 1
        apply List.map_congr_left
        intro item hitem
        have hiw : weight item ≤ weightArr items :=
          weight_le_weightArr hitem
        have hw2 : weightArr items + 1 ≤ weightObj fields := by
          rw [← weight_arr, ← hv]; exact hkvw
        cases item with
        | vObj g =>
            apply redactF_congr_fuel parse pats hparse
              (weight (Value.vObj g)) _ le_rfl
            · omega
            · exact le_rfl
        | vNull => rfl
        | vBool b => rfl
        | vInt i => rfl
        | vStr s => rfl
        | vArr its => rfl
    | vNull => rfl
    | vBool b => rfl
    | vInt i => rfl
    | vStr s => rfl
  · have ha2 : _is_field_allowed pats kv.1 cp = false := by
      cases hb : _is_field_allowed pats kv.1 cp
      · rfl
      · exact absurd hb ha
    simp only [ha2, if_false, Bool.false_eq_true]

/-! The claim theorems. -/

/-- C1: in any record under redaction (its working entries after the
body-unwrap prelude, at any current path) and for any allowlist, every key
whose name and full dotted path match no compiled predicate is mapped in
the output to exactly the sentinel string, whatever the original value was
(in particular a disallowed nested mapping is collapsed to the sentinel,
not recursed into). -/
theorem disallowed_key_maps_to_sentinel (parse : String → Option Value)
    (pats : List (String → Bool)) (fields : List (String × Value))
    (cp k : String)
    (hmem : dictHasKey (unwrapBody parse fields cp) k = true)
    (hden : _is_field_allowed pats k cp = false) :
    dictLookup (objFields
        (redact_sensitive_fields parse pats (Value.vObj fields) cp)) k
      = some (Value.vStr "[REDACTED]") := by
  unfold redact_sensitive_fields
  rw [weight_obj, redactF_obj]
  simp only [objFields]
  rw [dictLookup_map_entry (unwrapBody parse fields cp)
    (fun kv =>
      if _is_field_allowed pats kv.1 cp then
        redactAllowed
          (fun d p => redactF parse pats (weightObj fields) d p)
          (nestedPath cp kv.1) kv.2
      else Value.vStr "[REDACTED]") k]
  obtain ⟨v, hv⟩ := dictHasKey_iff_lookup.mp hmem
  rw [hv]
  simp [hden]

/-- Witness for C1 at a concrete record: with the default allowlist, a key
named secret is replaced by the sentinel. -/
theorem disallowed_key_maps_to_sentinel_witness :
    dictLookup (objFields (redact_sensitive_fields noParse
        (_compile_patterns (initAllowedFields none))
        (Value.vObj [("secret", Value.vStr "x")]) "")) "secret"
      = some (Value.vStr "[REDACTED]") :=
  disallowed_key_maps_to_sentinel noParse
    (_compile_patterns (initAllowedFields none))
    [("secret", Value.vStr "x")] "" "secret" (by decide) (by decide)

/-- C2: the body unwrap fires exactly when the record is at the root (empty
current path), has exactly one key, that key is the literal body, its value
is a string, and the string parses as a JSON mapping; the working record is
then the parsed mapping updated with the marker key set to true.  In every
other case (parse failure, parsed value not a mapping, or a root-shape
condition failing) the record passes into normal redaction unchanged. -/
theorem body_unwrap_characterization (parse : String → Option Value)
    (fields : List (String × Value)) (cp : String) :
    (∀ s parsedFields, fields = [("body", Value.vStr s)] → cp = "" →
        parse s = some (Value.vObj parsedFields) →
        unwrapBody parse fields cp
          = dictInsert parsedFields "__body_unwrapped" (Value.vBool true)) ∧
    ((¬ ∃ s parsedFields, fields = [("body", Value.vStr s)] ∧ cp = "" ∧
        parse s = some (Value.vObj parsedFields)) →
      unwrapBody parse fields cp = fields) := by
  constructor
  · intro s parsedFields hf hcp hp
    subst hf
    subst hcp
    have hc : ([(("body" : String), Value.vStr s)]).length = 1 ∧
        dictHasKey [("body", Value.vStr s)] "body" = true ∧ ("" : String) = "" :=
      ⟨rfl, by simp [dictHasKey], rfl⟩
    rw [unwrapBody, if_pos hc]
    have hl : dictLookup [("body", Value.vStr s)] "body"
        = some (Value.vStr s) := by simp [dictLookup]
    simp only [hl, hp]
  · intro hno
    unfold unwrapBody
    split
    next hc =>
      obtain ⟨hlen, hkey, hcp⟩ := hc
      obtain ⟨v, hv⟩ := dictHasKey_iff_lookup.mp hkey
      have hfields := singleton_of_length_one_lookup hlen hv
      rw [hv]
      cases v with
      | vStr s =>
          cases hp : parse s with
          | none => simp only [hp]
          | some pv =>
              cases pv with
              | vObj parsedFields =>
                  exact absurd ⟨s, parsedFields, hfields, hcp, hp⟩ hno
              | vNull => simp only [hp]
              | vBool b => simp only [hp]
              | vInt i => simp only [hp]
              | vStr t => simp only [hp]
              | vArr its => simp only [hp]
      | vNull => rfl
      | vBool b => rfl
      | vInt i => rfl
      | vArr its => rfl
      | vObj g => rfl
    next => rfl

/-- Witness for C2 at a concrete record: a singleton body record at the
root whose string parses to a mapping is replaced by the parsed mapping
plus the marker. -/
theorem body_unwrap_characterization_witness :
    unwrapBody onePayload [("body", Value.vStr "payload")] ""
      = dictInsert [("id", Value.vInt 1), ("secret", Value.vStr "x")]
          "__body_unwrapped" (Value.vBool true) :=
  (body_unwrap_characterization onePayload
      [("body", Value.vStr "payload")] "").1 "payload"
    [("id", Value.vInt 1), ("secret", Value.vStr "x")] rfl rfl rfl

/-- C3: the allow check returns true exactly when some compiled predicate
matches the bare field name or the full dotted path (the field name when the
current path is empty, else the current path, a dot and the field name);
consequently the allowlist holding only the literal data.user_id allows
user_id under the path data, denies a top-level user_id, and a top-level
record with key user_id has that key redacted for any parse function. -/
theorem is_field_allowed_characterization :
    (∀ (pats : List (String → Bool)) (field_path cp : String),
      _is_field_allowed pats field_path cp = true ↔
        ∃ p ∈ pats, p field_path = true ∨
          p (nestedPath cp field_path) = true) ∧
    _is_field_allowed (_compile_patterns [FieldSpec.lit "data.user_id"])
      "user_id" "data" = true ∧
    _is_field_allowed (_compile_patterns [FieldSpec.lit "data.user_id"])
      "user_id" "" = false ∧
    (∀ parse : String → Option Value,
      redact_sensitive_fields parse
        (_compile_patterns [FieldSpec.lit "data.user_id"])
        (Value.vObj [("user_id", Value.vStr "x")]) ""
      = Value.vObj [("user_id", Value.vStr "[REDACTED]")]) := by
  refine ⟨fun pats field_path cp => ?_, by decide, by decide, fun parse => ?_⟩
  · unfold _is_field_allowed
    rw [List.any_eq_true]
    constructor
    · rintro ⟨p, hp, hor⟩
      exact ⟨p, hp, by simpa [Bool.or_eq_true] using hor⟩
    · rintro ⟨p, hp, hor⟩
      exact ⟨p, hp, by simpa [Bool.or_eq_true] using hor⟩
  · unfold redact_sensitive_fields
    rw [weight_obj, redactF_obj]
    have hu : unwrapBody parse [("user_id", Value.vStr "x")] ""
        = [("user_id", Value.vStr "x")] := by
      rw [unwrapBody, if_neg]
      intro hc
      have := hc.2.1
      simp [dictHasKey] at this
    rw [hu]
    have ha : _is_field_allowed
        (_compile_patterns [FieldSpec.lit "data.user_id"]) "user_id" ""
        = false := by decide
    simp [ha]

/-- C4: evaluation of the compiled literal predicate for the entry id.  It
accepts ID, Id and iD and rejects identifier and valid, as the claim says;
but it also accepts the key id followed by a newline, which is not equal to
id up to case: the dollar anchor of the compiled Python regex also matches
just before a trailing newline, contradicting the exact-match contract. -/
theorem literal_predicate_trailing_newline :
    compileFieldSpec (FieldSpec.lit "id") "ID" = true ∧
    compileFieldSpec (FieldSpec.lit "id") "Id" = true ∧
    compileFieldSpec (FieldSpec.lit "id") "iD" = true ∧
    compileFieldSpec (FieldSpec.lit "id") "identifier" = false ∧
    compileFieldSpec (FieldSpec.lit "id") "valid" = false ∧
    compileFieldSpec (FieldSpec.lit "id") "id\n" = true ∧
    asciiLower "id\n" ≠ asciiLower "id" := by decide

/-- C5: an allowed key holding a sequence keeps a sequence of the same
length and element order; every mapping element is replaced by its recursive
redaction under the nested path of the parent field (list indices add no
path segment), and every non-mapping element passes through unchanged. -/
theorem allowed_sequence_elementwise (parse : String → Option Value)
    (pats : List (String → Bool))
    (hparse : ∀ s v, parse s = some v → weight v ≤ s.length)
    (fields : List (String × Value)) (cp k : String) (items : List Value)
    (hk : dictLookup (unwrapBody parse fields cp) k
      = some (Value.vArr items))
    (ha : _is_field_allowed pats k cp = true) :
    dictLookup (objFields
        (redact_sensitive_fields parse pats (Value.vObj fields) cp)) k
      = some (Value.vArr (items.map (fun item =>
          match item with
          | Value.vObj g =>
              redact_sensitive_fields parse pats (Value.vObj g)
                (nestedPath cp k)
          | _ => item)))
    ∧ (items.map (fun item =>
          match item with
          | Value.vObj g =>
              redact_sensitive_fields parse pats (Value.vObj g)
                (nestedPath cp k)
          | _ => item)).length = items.length := by
  refine ⟨?_, List.length_map _ _⟩
  rw [redact_obj_self parse pats hparse fields cp]
  simp only [objFields]
  rw [dictLookup_map_entry (unwrapBody parse fields cp)
    (fun kv =>
      if _is_field_allowed pats kv.1 cp then
        redactAllowed (fun d p => redact_sensitive_fields parse pats d p)
          (nestedPath cp kv.1) kv.2
      else Value.vStr "[REDACTED]") k]
  rw [hk]
  simp only [Option.map_some', ha, if_true, redactAllowed]

/-- Witness for C5 at a concrete record: the spec example with allowlist
data, id on a two-element sequence. -/
theorem allowed_sequence_elementwise_witness :
    dictLookup (objFields (redact_sensitive_fields noParse
        (_compile_patterns [FieldSpec.lit "data", FieldSpec.lit "id"])
        (Value.vObj [("data", Value.vArr
          [Value.vObj [("id", Value.vInt 1), ("x", Value.vInt 2)],
           Value.vObj [("id", Value.vInt 3), ("x", Value.vInt 4)]])])
        "")) "data"
      = some (Value.vArr
          ([Value.vObj [("id", Value.vInt 1), ("x", Value.vInt 2)],
            Value.vObj [("id", Value.vInt 3), ("x", Value.vInt 4)]].map
            (fun item =>
              match item with
              | Value.vObj g =>
                  redact_sensitive_fields noParse
                    (_compile_patterns
                      [FieldSpec.lit "data", FieldSpec.lit "id"])
                    (Value.vObj g) (nestedPath "" "data")
              | _ => item)))
    ∧ ([Value.vObj [("id", Value.vInt 1), ("x", Value.vInt 2)],
        Value.vObj [("id", Value.vInt 3), ("x", Value.vInt 4)]].map
        (fun item =>
          match item with
          | Value.vObj g =>
              redact_sensitive_fields noParse
                (_compile_patterns [FieldSpec.lit "data", FieldSpec.lit "id"])
                (Value.vObj g) (nestedPath "" "data")
          | _ => item)).length
      = [Value.vObj [("id", Value.vInt 1), ("x", Value.vInt 2)],
         Value.vObj [("id", Value.vInt 3), ("x", Value.vInt 4)]].length :=
  allowed_sequence_elementwise noParse
    (_compile_patterns [FieldSpec.lit "data", FieldSpec.lit "id"])
    (fun _ _ h => Option.noConfusion h)
    [("data", Value.vArr
      [Value.vObj [("id", Value.vInt 1), ("x", Value.vInt 2)],
       Value.vObj [("id", Value.vInt 3), ("x", Value.vInt 4)]])]
    "" "data"
    [Value.vObj [("id", Value.vInt 1), ("x", Value.vInt 2)],
     Value.vObj [("id", Value.vInt 3), ("x", Value.vInt 4)]]
    rfl (by decide)

/-- C7: redaction is total.  The recursion of `redact_sensitive_fields` is
embedded with a fuel parameter; whenever parsed output is no heavier than
its source text (true of the JSON parser), every fuel at least the weight
of the record yields the same result, so the recursion needs only finitely
much fuel, terminates, and always returns a record. -/
theorem redact_sensitive_fields_total (parse : String → Option Value)
    (pats : List (String → Bool))
    (hparse : ∀ s v, parse s = some v → weight v ≤ s.length)
    (data : Value) (cp : String) (n : Nat) (hn : weight data ≤ n) :
    redactF parse pats n data cp
      = redact_sensitive_fields parse pats data cp :=
  redactF_eq_redact parse pats hparse hn cp

/-- Witness for C7 at a concrete record and a concrete surplus fuel. -/
theorem redact_sensitive_fields_total_witness :
    redactF noParse (_compile_patterns (initAllowedFields none)) 9
        (Value.vObj [("id", Value.vInt 1)]) ""
      = redact_sensitive_fields noParse
          (_compile_patterns (initAllowedFields none))
          (Value.vObj [("id", Value.vInt 1)]) "" :=
  redact_sensitive_fields_total noParse
    (_compile_patterns (initAllowedFields none))
    (fun _ _ h => Option.noConfusion h)
    (Value.vObj [("id", Value.vInt 1)]) "" 9 (by decide)

/-- C8: the first error call produces an envelope with the suppress flag
false; a call strictly less than five seconds after the previous one
produces the flag true; a call six or more seconds after the previous one
produces the flag false; and the stored last-error time is updated on
every call, suppressed or not. -/
theorem error_debounce_behavior :
    (∀ t : ℚ, errorDebounceStep initLastErrorTime t = (false, some t)) ∧
    (∀ t d : ℚ, 0 ≤ d → d < 5 →
      errorDebounceStep (some t) (t + d) = (true, some (t + d))) ∧
    (∀ t d : ℚ, 6 ≤ d →
      errorDebounceStep (some t) (t + d) = (false, some (t + d))) ∧
    (∀ (st : Option ℚ) (t : ℚ), (errorDebounceStep st t).2 = some t) := by
  refine ⟨fun t => rfl, fun t d h0 h5 => ?_, fun t d h6 => ?_,
    fun st t => rfl⟩
  · have hd : t + d - t = d := by ring
    rw [errorDebounceStep, hd, if_pos h5]
  · have hd : t + d - t = d := by ring
    rw [errorDebounceStep, hd, if_neg (by linarith)]

/-- Witness for C8 at concrete call times. -/
theorem error_debounce_behavior_witness :
    errorDebounceStep initLastErrorTime 0 = (false, some 0) ∧
    errorDebounceStep (some 0) (0 + 3) = (true, some (0 + 3)) ∧
    errorDebounceStep (some 0) (0 + 6) = (false, some (0 + 6)) :=
  ⟨error_debounce_behavior.1 0,
   error_debounce_behavior.2.1 0 3 (by norm_num) (by norm_num),
   error_debounce_behavior.2.2.1 0 6 (by norm_num)⟩

/-- C9: an explicitly empty allowlist is treated like an omitted one: the
falsiness check substitutes the default allowlist, so an engine built with
an empty allowlist has the same allowlist as the default engine and still
allows fields named id at every path. -/
theorem empty_allowlist_same_as_default :
    initAllowedFields (some []) = initAllowedFields none ∧
    ∀ cp : String,
      _is_field_allowed (_compile_patterns (initAllowedFields (some [])))
        "id" cp = true := by
  refine ⟨rfl, fun cp => ?_⟩
  have h : literalPredicate "id" "id" = true := by decide
  simp [initAllowedFields, DEFAULT_ALLOWED_FIELDS, _compile_patterns,
    _is_field_allowed, compileFieldSpec, h]

/-- C10: because the constructor appends the marker literal to every
allowlist, a field named __body_unwrapped is allowed at every current path
for every caller-supplied allowlist (also when no unwrapping occurred). -/
theorem marker_field_always_allowed
    (allowed_fields : Option (List FieldSpec)) (cp : String) :
    _is_field_allowed (_compile_patterns (initAllowedFields allowed_fields))
      "__body_unwrapped" cp = true := by
  have hmem : literalPredicate "__body_unwrapped"
      ∈ _compile_patterns (initAllowedFields allowed_fields) := by
    unfold _compile_patterns initAllowedFields
    rw [List.map_append]
    apply List.mem_append_right
    simp [compileFieldSpec]
  have h : literalPredicate "__body_unwrapped" "__body_unwrapped" = true := by
    decide
  unfold _is_field_allowed
  rw [List.any_eq_true]
  exact ⟨_, hmem, by simp [h]⟩

/-! Towards the fixed-point property: redacting an already-redacted record
changes nothing. -/

/-- The transformation applied to one entry of the working record by
`redact_sensitive_fields`. -/
def redactEntry (parse : String → Option Value) (pats : List (String → Bool))
    (cp : String) (kv : String × Value) : String × Value :=
  (kv.1,
    if _is_field_allowed pats kv.1 cp then
      redactAllowed (fun d p => redact_sensitive_fields parse pats d p)
        (nestedPath cp kv.1) kv.2
    else Value.vStr "[REDACTED]")

theorem redact_obj_entry (parse : String → Option Value)
    (pats : List (String → Bool))
    (hparse : ∀ s v, parse s = some v → weight v ≤ s.length)
    (fields : List (String × Value)) (cp : String) :
    redact_sensitive_fields parse pats (Value.vObj fields) cp
      = Value.vObj ((unwrapBody parse fields cp).map
          (redactEntry parse pats cp)) :=
  redact_obj_self parse pats hparse fields cp

/-- After one redaction pass the body-unwrap prelude can no longer fire:
either the redacted record does not have the singleton-body shape, or its
body value is the sentinel (which does not parse) or a string whose parse
already failed to produce a mapping on the first pass. -/
theorem unwrap_after_redact (parse : String → Option Value)
    (pats : List (String → Bool))
    (hparse : ∀ s v, parse s = some v → weight v ≤ s.length)
    (hsent : parse "[REDACTED]" = none)
    (fields W : List (String × Value)) (cp : String)
    (hW : unwrapBody parse fields cp = W) :
    unwrapBody parse (W.map (redactEntry parse pats cp)) cp
      = W.map (redactEntry parse pats cp) := by
  unfold unwrapBody
  split
  next hc =>
    obtain ⟨hlen, hkey, hcp⟩ := hc
    subst hcp
    obtain ⟨v, hv⟩ := dictHasKey_iff_lookup.mp hkey
    have hsing := singleton_of_length_one_lookup hlen hv
    rw [hv]
    cases v with
    | vStr s =>
        cases hp : parse s with
        | none => simp only [hp]
        | some pv =>
            cases pv with
            | vObj pf =>
                exfalso
                obtain ⟨kv0, hW0, hFkv⟩ := map_eq_singleton hsing
                have hk1 : kv0.1 = "body" := congrArg Prod.fst hFkv
                have hk2 : (redactEntry parse pats "" kv0).2 = Value.vStr s :=
                  congrArg Prod.snd hFkv
                by_cases ha : _is_field_allowed pats kv0.1 "" = true
                · have hval : redactAllowed
                      (fun d p => redact_sensitive_fields parse pats d p)
                      (nestedPath "" kv0.1) kv0.2 = Value.vStr s := by
                    simpa [redactEntry, ha] using hk2
                  cases hv2 : kv0.2 with
                  | vObj inner =>
                      rw [hv2] at hval
                      simp only [redactAllowed] at hval
                      rw [redact_obj_entry parse pats hparse inner _] at hval
                      exact Value.noConfusion hval
                  | vArr its =>
                      rw [hv2] at hval
                      simp only [redactAllowed] at hval
                      exact Value.noConfusion hval
                  | vNull =>
                      rw [hv2] at hval
                      simp only [redactAllowed] at hval
                      exact Value.noConfusion hval
                  | vBool b =>
                      rw [hv2] at hval
                      simp only [redactAllowed] at hval
                      exact Value.noConfusion hval
                  | vInt i =>
                      rw [hv2] at hval
                      simp only [redactAllowed] at hval
                      exact Value.noConfusion hval
                  | vStr t =>
                      rw [hv2] at hval
                      simp only [redactAllowed] at hval
                      -- the redacted body value is the original string, so
                      -- the first pass already saw that `parse s` yields no
                      -- mapping; combine with `hp` for the contradiction
                      have hkv0 : kv0 = ("body", Value.vStr s) := by
                        obtain ⟨a, b⟩ := kv0
                        dsimp only at hk1 hv2
                        subst hk1
                        subst hv2
                        rw [hval]
                      rw [hkv0] at hW0
                      rw [hW0] at hW
                      unfold unwrapBody at hW
                      split at hW
                      next hc2 =>
                        obtain ⟨hlen2, hkey2, -⟩ := hc2
                        obtain ⟨v1, hv1⟩ := dictHasKey_iff_lookup.mp hkey2
                        rw [hv1] at hW
                        cases v1 with
                        | vStr s1 =>
                            cases hp1 : parse s1 with
                            | none =>
                                simp only [hp1] at hW
                                have hv1s : dictLookup fields "body"
                                    = some (Value.vStr s) := by
                                  rw [hW]
                                  simp [dictLookup]
                                rw [hv1s] at hv1
                                have hss := Option.some.inj hv1
                                rw [Value.vStr.injEq] at hss
                                rw [← hss] at hp1
                                rw [hp] at hp1
                                exact Option.noConfusion hp1
                            | some pv1 =>
                                cases pv1 with
                                | vObj pf1 =>
                                    simp only [hp1] at hW
                                    have hmk := dictLookup_dictInsert_self
                                      pf1 "__body_unwrapped" (Value.vBool true)
                                    rw [hW] at hmk
                                    simp [dictLookup] at hmk
                                | vNull =>
                                    simp only [hp1] at hW
                                    have hv1s : dictLookup fields "body"
                                        = some (Value.vStr s) := by
                                      rw [hW]
                                      simp [dictLookup]
                                    rw [hv1s] at hv1
                                    have hss := Option.some.inj hv1
                                    rw [Value.vStr.injEq] at hss
                                    rw [← hss] at hp1
                                    rw [hp] at hp1
                                    exact Value.noConfusion
                                      (Option.some.inj hp1)
                                | vBool b1 =>
                                    simp only [hp1] at hW
                                    have hv1s : dictLookup fields "body"
                                        = some (Value.vStr s) := by
                                      rw [hW]
                                      simp [dictLookup]
                                    rw [hv1s] at hv1
                                    have hss := Option.some.inj hv1
                                    rw [Value.vStr.injEq] at hss
                                    rw [← hss] at hp1
                                    rw [hp] at hp1
                                    exact Value.noConfusion
                                      (Option.some.inj hp1)
                                | vInt i1 =>
                                    simp only [hp1] at hW
                                    have hv1s : dictLookup fields "body"
                                        = some (Value.vStr s) := by
                                      rw [hW]
                                      simp [dictLookup]
                                    rw [hv1s] at hv1
                                    have hss := Option.some.inj hv1
                                    rw [Value.vStr.injEq] at hss
                                    rw [← hss] at hp1
                                    rw [hp] at hp1
                                    exact Value.noConfusion
                                      (Option.some.inj hp1)
                                | vStr t1 =>
                                    simp only [hp1] at hW
                                    have hv1s : dictLookup fields "body"
                                        = some (Value.vStr s) := by
                                      rw [hW]
                                      simp [dictLookup]
                                    rw [hv1s] at hv1
                                    have hss := Option.some.inj hv1
                                    rw [Value.vStr.injEq] at hss
                                    rw [← hss] at hp1
                                    rw [hp] at hp1
                                    exact Value.noConfusion
                                      (Option.some.inj hp1)
                                | vArr its1 =>
                                    simp only [hp1] at hW
                                    have hv1s : dictLookup fields "body"
                                        = some (Value.vStr s) := by
                                      rw [hW]
                                      simp [dictLookup]
                                    rw [hv1s] at hv1
                                    have hss := Option.some.inj hv1
                                    rw [Value.vStr.injEq] at hss
                                    rw [← hss] at hp1
                                    rw [hp] at hp1
                                    exact Value.noConfusion
                                      (Option.some.inj hp1)
                        | vNull =>
                            simp only [] at hW
                            have hv1s : dictLookup fields "body"
                                = some (Value.vStr s) := by
                              rw [hW]
                              simp [dictLookup]
                            rw [hv1s] at hv1
                            exact Value.noConfusion (Option.some.inj hv1)
                        | vBool b1 =>
                            simp only [] at hW
                            have hv1s : dictLookup fields "body"
                                = some (Value.vStr s) := by
                              rw [hW]
                              simp [dictLookup]
                            rw [hv1s] at hv1
                            exact Value.noConfusion (Option.some.inj hv1)
                        | vInt i1 =>
                            simp only [] at hW
                            have hv1s : dictLookup fields "body"
                                = some (Value.vStr s) := by
                              rw [hW]
                              simp [dictLookup]
                            rw [hv1s] at hv1
                            exact Value.noConfusion (Option.some.inj hv1)
                        | vArr its1 =>
                            simp only [] at hW
                            have hv1s : dictLookup fields "body"
                                = some (Value.vStr s) := by
                              rw [hW]
                              simp [dictLookup]
                            rw [hv1s] at hv1
                            exact Value.noConfusion (Option.some.inj hv1)
                        | vObj g1 =>
                            simp only [] at hW
                            have hv1s : dictLookup fields "body"
                                = some (Value.vStr s) := by
                              rw [hW]
                              simp [dictLookup]
                            rw [hv1s] at hv1
                            exact Value.noConfusion (Option.some.inj hv1)
                      next hc2 =>
                        exact hc2 (by
                          rw [hW]
                          exact ⟨rfl, by simp [dictHasKey], rfl⟩)
                · have ha2 : _is_field_allowed pats kv0.1 "" = false := by
                    cases hb : _is_field_allowed pats kv0.1 ""
                    · rfl
                    · exact absurd hb ha
                  have hval : Value.vStr "[REDACTED]" = Value.vStr s := by
                    simpa [redactEntry, ha2] using hk2
                  have hsr := Value.vStr.injEq "[REDACTED]" s |>.mp hval
                  rw [← hsr] at hp
                  rw [hsent] at hp
                  exact Option.noConfusion hp
            | vNull => simp only [hp]
            | vBool b => simp only [hp]
            | vInt i => simp only [hp]
            | vStr t => simp only [hp]
            | vArr its => simp only [hp]
    | vNull => rfl
    | vBool b => rfl
    | vInt i => rfl
    | vArr its => rfl
    | vObj g => rfl
  next => rfl

/-- C6: for every record, every allowlist and every current path, redacting
an already-redacted record is a fixed point, given that parsed output is no
heavier than its source text and that the sentinel string does not parse
(both true of the JSON parser: a serialisation spells out every key and
value, and the sentinel is not valid JSON). -/
theorem redact_fixed_point (parse : String → Option Value)
    (pats : List (String → Bool))
    (hparse : ∀ s v, parse s = some v → weight v ≤ s.length)
    (hsent : parse "[REDACTED]" = none)
    (data : Value) (cp : String) :
    redact_sensitive_fields parse pats
        (redact_sensitive_fields parse pats data cp) cp
      = redact_sensitive_fields parse pats data cp := by
  suffices h : ∀ w data, weight data ≤ w → ∀ cp,
      redact_sensitive_fields parse pats
        (redact_sensitive_fields parse pats data cp) cp
      = redact_sensitive_fields parse pats data cp by
    exact h (weight data) data le_rfl cp
  intro w
  induction w using Nat.strong_induction_on with
  | _ w ih =>
  intro data hdw cp
  cases data with
  | vNull =>
      rw [redact_not_obj parse pats Value.vNull
        (fun g h => Value.noConfusion h) cp]
      exact redact_not_obj parse pats Value.vNull
        (fun g h => Value.noConfusion h) cp
  | vBool b =>
      rw [redact_not_obj parse pats (Value.vBool b)
        (fun g h => Value.noConfusion h) cp]
      exact redact_not_obj parse pats (Value.vBool b)
        (fun g h => Value.noConfusion h) cp
  | vInt i =>
      rw [redact_not_obj parse pats (Value.vInt i)
        (fun g h => Value.noConfusion h) cp]
      exact redact_not_obj parse pats (Value.vInt i)
        (fun g h => Value.noConfusion h) cp
  | vStr s =>
      rw [redact_not_obj parse pats (Value.vStr s)
        (fun g h => Value.noConfusion h) cp]
      exact redact_not_obj parse pats (Value.vStr s)
        (fun g h => Value.noConfusion h) cp
  | vArr items =>
      rw [redact_not_obj parse pats (Value.vArr items)
        (fun g h => Value.noConfusion h) cp]
      exact redact_not_obj parse pats (Value.vArr items)
        (fun g h => Value.noConfusion h) cp
  | vObj fields =>
      rw [weight_obj] at hdw
      rw [redact_obj_entry parse pats hparse fields cp]
      rw [redact_obj_entry parse pats hparse
        ((unwrapBody parse fields cp).map (redactEntry parse pats cp)) cp]
      rw [unwrap_after_redact parse pats hparse hsent fields
        (unwrapBody parse fields cp) cp rfl]
      congr 1
      rw [List.map_map]
      apply List.map_congr_left
      intro kv hkv
      have hw2 : weight kv.2 ≤ weightObj fields :=
        weight_unwrapBody_le hparse hkv
      show redactEntry parse pats cp (redactEntry parse pats cp kv)
        = redactEntry parse pats cp kv
      by_cases ha : _is_field_allowed pats kv.1 cp = true
      · unfold redactEntry
        simp only [ha, if_true]
        congr 1
        cases hv : kv.2 with
        | vObj inner =>
            have hb : weight (Value.vObj inner) ≤ weightObj fields := by
              rw [← hv]; exact hw2
            simp only [redactAllowed]
            rw [redact_obj_entry parse pats hparse inner
              (nestedPath cp kv.1)]
            simp only [redactAllowed]
            rw [← redact_obj_entry parse pats hparse inner
              (nestedPath cp kv.1)]
            exact ih (weight (Value.vObj inner)) (by omega) _ le_rfl _
        | vArr items =>
            have hb2 : weightArr items + 1 ≤ weightObj fields := by
              rw [← weight_arr, ← hv]; exact hw2
            simp only [redactAllowed]
            congr 1
            rw [List.map_map]
            apply List.map_congr_left
            intro item hitem
            have hb1 : weight item ≤ weightArr items :=
              weight_le_weightArr hitem
            cases item with
            | vObj g =>
                show (fun item =>
                    match item with
                    | Value.vObj g0 =>
                        redact_sensitive_fields parse pats (Value.vObj g0)
                          (nestedPath cp kv.1)
                    | i => i)
                  ((fun item =>
                    match item with
                    | Value.vObj g0 =>
                        redact_sensitive_fields parse pats (Value.vObj g0)
                          (nestedPath cp kv.1)
                    | i => i) (Value.vObj g))
                  = (fun item =>
                    match item with
                    | Value.vObj g0 =>
                        redact_sensitive_fields parse pats (Value.vObj g0)
                          (nestedPath cp kv.1)
                    | i => i) (Value.vObj g)
                simp only []
                rw [redact_obj_entry parse pats hparse g
                  (nestedPath cp kv.1)]
                simp only []
                rw [← redact_obj_entry parse pats hparse g
                  (nestedPath cp kv.1)]
                exact ih (weight (Value.vObj g)) (by omega) _ le_rfl _
            | vNull => rfl
            | vBool b0 => rfl
            | vInt i0 => rfl
            | vStr s0 => rfl
            | vArr its0 => rfl
        | vNull => rfl
        | vBool b0 => rfl
        | vInt i0 => rfl
        | vStr s0 => rfl
      · have ha2 : _is_field_allowed pats kv.1 cp = false := by
          cases hb : _is_field_allowed pats kv.1 cp
          · rfl
          · exact absurd hb ha
        unfold redactEntry
        simp only [ha2, if_false, Bool.false_eq_true]

/-- Witness for C6 at a concrete record with one allowed and one redacted
field, under the default allowlist. -/
theorem redact_fixed_point_witness :
    redact_sensitive_fields noParse
        (_compile_patterns (initAllowedFields none))
        (redact_sensitive_fields noParse
          (_compile_patterns (initAllowedFields none))
          (Value.vObj [("id", Value.vInt 1), ("secret", Value.vStr "x")]) "")
        ""
      = redact_sensitive_fields noParse
          (_compile_patterns (initAllowedFields none))
          (Value.vObj [("id", Value.vInt 1), ("secret", Value.vStr "x")])
          "" :=
  redact_fixed_point noParse (_compile_patterns (initAllowedFields none))
    (fun _ _ h => Option.noConfusion h) rfl
    (Value.vObj [("id", Value.vInt 1), ("secret", Value.vStr "x")]) ""

end WorkflowLogger
